import Mathlib

/-!
# Verification of the group-decision assignment bot (`bot_logic.py`)

This file gives a shallow embedding of the core of the repository:

* the probabilistic-serial ("simultaneous eating") solver
  `_bogomolnaia_moulin` (floating point numbers are embedded as exact
  rationals `ℚ`, keeping the source's `1e-9` epsilon guards literally);
* the session store `GroupDecisionBot` with its operations
  `start_session`, `cancel_session`, `submit_ranking`, `run_algorithm`,
  `make_final_assignments`;
* the ranking validator `is_ranking_format`;
* the randomized-rounding sampler `_probabilities_to_assignments`
  (the library draw `np.random.choice(n, p)` is embedded by inverse-cdf
  sampling from an explicit uniform draw in `[0,1)`).

Theorems about these definitions settle the specification claims.
-/

namespace BMBot

/-- The numerical tolerance `1e-9` used throughout `_bogomolnaia_moulin`. -/
def eps : ℚ := 1 / 1000000000

/-- State of the eating simulation: remaining supply per item, remaining
appetite per person, and the accumulated allocation matrix `prob`. -/
structure BMState (n m : ℕ) where
  itemRem : Fin m → ℚ
  personRem : Fin n → ℚ
  prob : Fin n → Fin m → ℚ

variable {n m : ℕ}

/-- Current top available item of person `p`: the first item in their
preference list whose remaining supply exceeds `eps`; `none` when the
person's appetite is exhausted (the source leaves the `-1` sentinel). -/
def topOf (prefs : Fin n → List (Fin m)) (s : BMState n m) (p : Fin n) :
    Option (Fin m) :=
  if eps < s.personRem p then (prefs p).find? (fun j => eps < s.itemRem j)
  else none

/-- Number of simultaneous eaters of item `j`. -/
def eatersCnt (prefs : Fin n → List (Fin m)) (s : BMState n m) (j : Fin m) : ℕ :=
  (Finset.univ.filter (fun p => topOf prefs s p = some j)).card

/-- Candidate durations until the next boundary event: for each eaten item,
the time to exhaust its supply at the aggregate rate; for each eating
person, their own remaining appetite. -/
def dtCands (prefs : Fin n → List (Fin m)) (s : BMState n m) : List ℚ :=
  ((List.finRange m).filter (fun j => 0 < eatersCnt prefs s j)).map
      (fun j => s.itemRem j / (eatersCnt prefs s j : ℚ))
    ++ ((List.finRange n).filter (fun p => (topOf prefs s p).isSome)).map
      (fun p => s.personRem p)

/-- Minimum of a list of rationals. -/
def listMin : List ℚ → Option ℚ
  | [] => none
  | a :: as => some (as.foldl min a)

/-- Advance the simulation by duration `dt`: every eaten item loses
`dt * k` supply, every eater gains `dt` of their top item and loses `dt`
appetite; negatives are clamped to `0` as in the source. -/
def advance (prefs : Fin n → List (Fin m)) (s : BMState n m) (dt : ℚ) :
    BMState n m where
  itemRem := fun j =>
    if 0 < eatersCnt prefs s j then
      (let v := s.itemRem j - dt * (eatersCnt prefs s j : ℚ)
       if v < 0 then 0 else v)
    else s.itemRem j
  personRem := fun p =>
    if (topOf prefs s p).isSome then
      (let v := s.personRem p - dt
       if v < 0 then 0 else v)
    else s.personRem p
  prob := fun p j =>
    if topOf prefs s p = some j then s.prob p j + dt else s.prob p j

/-- One iteration of the main eating loop body: `none` is the defensive
`break` taken when there is no candidate event. -/
def bmStep (prefs : Fin n → List (Fin m)) (s : BMState n m) :
    Option (BMState n m) :=
  match listMin (dtCands prefs s) with
  | none => none
  | some dt => some (advance prefs s dt)

/-- The main eating loop (`while np.any(person_remaining > 1e-9)`),
embedded with explicit fuel; `bmLoop_done_of_measure` and `bmLoop_add`
below show that fuel `n + m` already reaches the loop's exit state and
that more fuel changes nothing. -/
def bmLoop (prefs : Fin n → List (Fin m)) : ℕ → BMState n m → BMState n m
  | 0, s => s
  | fuel + 1, s =>
    if ∃ p, eps < s.personRem p then
      match bmStep prefs s with
      | none => s
      | some s' => bmLoop prefs fuel s'
    else s

/-- Initial state: one unit of supply per item, one unit of appetite per
person, empty allocation. -/
def initState (n m : ℕ) : BMState n m where
  itemRem := fun _ => 1
  personRem := fun _ => 1
  prob := fun _ _ => 0

/-- Post-processing of the raw allocation matrix: clamp negative entries
to `0`, then divide each row by its sum, guarding a zero row sum by `1`. -/
def postprocess (P : Fin n → Fin m → ℚ) : Fin n → Fin m → ℚ :=
  let clamped : Fin n → Fin m → ℚ := fun p j => if P p j < 0 then 0 else P p j
  let rowSum : Fin n → ℚ := fun p => ∑ j, clamped p j
  let divisor : Fin n → ℚ := fun p => if rowSum p = 0 then 1 else rowSum p
  fun p j => clamped p j / divisor p

/-- `_bogomolnaia_moulin`: run the eating loop from the initial state and
post-process. Fuel `n + m` is sufficient, by `bmLoop_done_of_measure`
and `bmLoop_add`. -/
def bogomolnaia_moulin (prefs : Fin n → List (Fin m)) : Fin n → Fin m → ℚ :=
  postprocess (bmLoop prefs (n + m) (initState n m)).prob

/-! ## The ranking validator `is_ranking_format` -/

/-- Whitespace characters removed by `re.sub(r'\s+', '', text)`
(the ASCII fragment of the `\s` class). -/
def isPySpace (c : Char) : Bool :=
  c = ' ' || c = '\t' || c = '\n' || c = '\r' || c = '\x0b' || c = '\x0c'

/-- `re.sub(r'\s+', '', text)`: drop every whitespace character. -/
def stripWs (text : String) : String :=
  ⟨text.data.filter (fun c => !isPySpace c)⟩

/-- Split a character list at every comma (`str.split(',')`): always at
least one group, empty groups for leading/trailing/adjacent commas. -/
def splitComma : List Char → List (List Char)
  | [] => [[]]
  | c :: rest =>
    if c = ',' then [] :: splitComma rest
    else
      match splitComma rest with
      | g :: gs => (c :: g) :: gs
      | [] => [[c]]

/-- The regex `^\d+(,\d+)*$`: every comma-separated group is a nonempty
string of digits (digits embedded as the ASCII digits). -/
def matchesRanking (l : List Char) : Bool :=
  (splitComma l).all (fun g => !g.isEmpty && g.all Char.isDigit)

/-- `int(x)` on a digit string. -/
def natOfDigits (l : List Char) : ℕ :=
  l.foldl (fun acc c => 10 * acc + (c.toNat - 48)) 0

/-- `[int(x) for x in cleaned.split(',')]`. -/
def parseNums (l : List Char) : List ℕ :=
  (splitComma l).map natOfDigits

/-- `is_ranking_format(text, expected_length)`: strip whitespace, require
comma-separated digit groups, then require that the parsed numbers sorted
ascending (`sorted(numbers)`, embedded as insertion sort) equal
`list(range(1, len(numbers) + 1))`, with the optional length check. -/
def is_ranking_format (text : String) (expected_length : Option ℕ) : Bool :=
  let cleaned := (stripWs text).data
  if !matchesRanking cleaned then false
  else
    let numbers := parseNums cleaned
    let expected := List.range' 1 numbers.length
    match expected_length with
    | some n => if numbers.length ≠ n then false
                else List.insertionSort (· ≤ ·) numbers = expected
    | none => List.insertionSort (· ≤ ·) numbers = expected

/-! ## The sampler `_probabilities_to_assignments` -/

/-- `np.random.choice(len(row), p=row)` for one uniform draw
`u ∈ [0,1)`: inverse-cdf sampling, the smallest index whose cumulative
probability strictly exceeds `u`. -/
def npChoice : List ℚ → ℚ → ℕ
  | [], _ => 0
  | a :: rest, u => if u < a then 0 else npChoice rest (u - a) + 1

/-- `_probabilities_to_assignments`, with the process random state
embedded as one uniform draw `us i ∈ [0,1)` per participant. -/
def probabilities_to_assignments (us : ℕ → ℚ) (P : List (List ℚ)) : List ℕ :=
  (List.range P.length).map (fun i => npChoice (P.getD i []) (us i))

/-! ## The session store `GroupDecisionBot` -/

inductive Status where
  | collecting
  | algorithm_run
  | completed
deriving DecidableEq

/-- One session (`self.sessions[group_id]` in the source); `preferences`
is the insertion-ordered dict from user id to 0-based ranking. -/
structure Session where
  items : List String
  preferences : List (String × List ℕ)
  status : Status
  probabilities : Option (List (List ℚ))
  final_assignments : Option (List ℕ)
deriving DecidableEq

/-- `self.sessions`: the mutable map from group id to session. -/
def Store : Type := String → Option Session

/-- Write one key of the session map. -/
def Store.set (store : Store) (gid : String) (v : Option Session) : Store :=
  fun g => if g = gid then v else store g

/-- Result messages of the bot operations; each constructor stands for
the exact user-facing text built at the corresponding source line. -/
inductive BotMsg where
  | noActiveSession
  | rankingsClosed
  | invalidFormat
  | lengthMismatch (expected got : ℕ)
  | submitOk (collected total : ℕ)
  | algorithmAlreadyRun
  | insufficientRankings (need got : ℕ)
  | runOk
  | runAlgorithmFirst
  | assignmentsOk
deriving DecidableEq

/-- `start_session`. -/
def start_session (store : Store) (gid : String) (items : List String) :
    Bool × Store :=
  match store gid with
  | some _ => (false, store)
  | none =>
    (true, store.set gid (some ⟨items, [], .collecting, none, none⟩))

/-- `cancel_session`. -/
def cancel_session (store : Store) (gid : String) : Bool × Store :=
  match store gid with
  | some _ => (true, store.set gid none)
  | none => (false, store)

/-- `session['preferences'][user_id] = ranking`: dict assignment keeps an
existing key at its position and overwrites its value, otherwise appends. -/
def upsert : List (String × List ℕ) → String → List ℕ → List (String × List ℕ)
  | [], k, v => [(k, v)]
  | (k', v') :: rest, k, v =>
    if k' = k then (k, v) :: rest else (k', v') :: upsert rest k v

/-- `submit_ranking`. -/
def submit_ranking (store : Store) (gid uid text : String) :
    (Bool × BotMsg) × Store :=
  match store gid with
  | none => ((false, .noActiveSession), store)
  | some s =>
    if s.status ≠ .collecting then ((false, .rankingsClosed), store)
    else
      let cleaned := stripWs text
      if !is_ranking_format cleaned (some s.items.length) then
        ((false, .invalidFormat), store)
      else
        let ranking := (parseNums cleaned.data).map (fun x => x - 1)
        if ranking.length ≠ s.items.length then
          ((false, .lengthMismatch s.items.length ranking.length), store)
        else
          let prefs' := upsert s.preferences uid ranking
          ((true, .submitOk prefs'.length s.items.length),
            store.set gid (some { s with preferences := prefs' }))

/-- Convert a 0-based ranking of natural numbers into `Fin m` item
indices (indices `≥ m` would crash the source with an `IndexError`; they
never occur in sessions built through `submit_ranking`). -/
def toFins (m : ℕ) (xs : List ℕ) : List (Fin m) :=
  xs.filterMap (fun x => if h : x < m then some ⟨x, h⟩ else none)

/-- The solver on the session's concrete data: rows of the stored
`probabilities` matrix, in the insertion order of the preference dict. -/
def bmList (m : ℕ) (rows : List (List ℕ)) : List (List ℚ) :=
  let prefs : Fin rows.length → List (Fin m) := fun i => toFins m (rows.get i)
  (List.finRange rows.length).map
    (fun i => (List.finRange m).map (fun j => bogomolnaia_moulin prefs i j))

/-- `run_algorithm`. The solver is total here, so the source's
`try/except` wrapper never fires on sessions with validated rankings. -/
def run_algorithm (store : Store) (gid : String) : BotMsg × Store :=
  match store gid with
  | none => (.noActiveSession, store)
  | some s =>
    if s.status ≠ .collecting then (.algorithmAlreadyRun, store)
    else if s.preferences.length < s.items.length then
      (.insufficientRankings s.items.length s.preferences.length, store)
    else
      let M := bmList s.items.length (s.preferences.map Prod.snd)
      (.runOk,
        store.set gid (some { s with probabilities := some M,
                                     status := .algorithm_run }))

/-- `make_final_assignments`; `us` is the process random state. The
`getD []` default is dead: `status = algorithm_run` implies a stored
matrix for sessions built through `run_algorithm`. -/
def make_final_assignments (us : ℕ → ℚ) (store : Store) (gid : String) :
    BotMsg × Store :=
  match store gid with
  | none => (.noActiveSession, store)
  | some s =>
    if s.status ≠ .algorithm_run then (.runAlgorithmFirst, store)
    else
      let assignments := probabilities_to_assignments us (s.probabilities.getD [])
      (.assignmentsOk,
        store.set gid (some { s with final_assignments := some assignments,
                                     status := .completed }))

/-! ## Command sequences over the store -/

/-- One incoming command, as dispatched by the adapter layer. -/
inductive Op where
  | start (gid : String) (items : List String)
  | cancel (gid : String)
  | submit (gid uid text : String)
  | runAlg (gid : String)
  | makeAssign (gid : String) (us : ℕ → ℚ)
  | getStatus (gid : String)

/-- Apply one command to the store (`get_status` is read-only). -/
def applyOp (store : Store) : Op → Store
  | .start gid items => (start_session store gid items).2
  | .cancel gid => (cancel_session store gid).2
  | .submit gid uid text => (submit_ranking store gid uid text).2
  | .runAlg gid => (run_algorithm store gid).2
  | .makeAssign gid us => (make_final_assignments us store gid).2
  | .getStatus _ => store

/-- Position of a status along `collecting → algorithm_run → completed`. -/
def Status.rank : Status → ℕ
  | .collecting => 0
  | .algorithm_run => 1
  | .completed => 2

/-! ## Specification-side definitions and concrete demonstration data -/

/-- The ranking validator's acceptance condition as the specification
words it: after whitespace removal the text is digits separated by single
commas, and it parses to exactly `nn` numbers forming a permutation of
`1..nn`. -/
def rankingSpec (text : String) (nn : ℕ) : Prop :=
  matchesRanking (stripWs text).data = true ∧
  (parseNums (stripWs text).data).length = nn ∧
  (parseNums (stripWs text).data).Perm (List.range' 1 nn)

/-- The classic 3×3 profile: participants 1 and 2 rank `A>B>C`,
participant 3 ranks `B>A>C`. -/
def classicPrefs : Fin 3 → List (Fin 3)
  | ⟨0, _⟩ => [0, 1, 2]
  | ⟨1, _⟩ => [0, 1, 2]
  | ⟨2, _⟩ => [1, 0, 2]

/-- The empty session store. -/
def emptyStore : Store := fun _ => none

/-- The collecting session held by `twoTwoStore`. -/
def twoTwoSession : Session :=
  ⟨["A", "B"], [("u1", [0, 1]), ("u2", [1, 0])], .collecting, none, none⟩

/-- `twoTwoSession` after participant `u1` resubmits `2,1`. -/
def twoTwoResub : Session :=
  ⟨["A", "B"], [("u1", [1, 0]), ("u2", [1, 0])], .collecting, none, none⟩

/-- `twoTwoSession` after a successful `run_algorithm`. -/
def twoTwoRanSession : Session :=
  ⟨["A", "B"], [("u1", [0, 1]), ("u2", [1, 0])], .algorithm_run,
    some (bmList 2 [[0, 1], [1, 0]]), none⟩

/-- A store holding one collecting session over items `A,B` with three
collected rankings, all `A>B` — three participants, two items. -/
def threeTwoStore : Store :=
  [Op.start "g" ["A", "B"], Op.submit "g" "u1" "1,2",
   Op.submit "g" "u2" "1,2", Op.submit "g" "u3" "1,2"].foldl applyOp emptyStore

/-- A store holding one collecting session over items `A,B` with two
collected rankings `A>B` and `B>A`. -/
def twoTwoStore : Store :=
  [Op.start "g" ["A", "B"], Op.submit "g" "u1" "1,2",
   Op.submit "g" "u2" "2,1"].foldl applyOp emptyStore

/-- `twoTwoStore` after a successful `run_algorithm`. -/
def twoTwoRan : Store := (run_algorithm twoTwoStore "g").2

/-- The column `j` sum of a matrix stored as a list of rows. -/
def colSumList (M : List (List ℚ)) (j : ℕ) : ℚ :=
  (M.map (fun row => row.getD j 0)).sum

/-- The probability matrix stored in the session of group `gid`. -/
def storedMatrix (store : Store) (gid : String) : List (List ℚ) :=
  match store gid with
  | some s => s.probabilities.getD []
  | none => []


/-- Participants whose appetite is still above the tolerance. -/
def PA (s : BMState n m) : Finset (Fin n) :=
  Finset.univ.filter (fun p => eps < s.personRem p)

/-- Items whose supply is still above the tolerance. -/
def IA (s : BMState n m) : Finset (Fin m) :=
  Finset.univ.filter (fun j => eps < s.itemRem j)

/-- Termination measure of the eating loop: active participants plus
active items; every event fully exhausts at least one of them. -/
def activeCount (s : BMState n m) : ℕ := (PA s).card + (IA s).card

/-- Exit condition of the main loop: every appetite is within the
tolerance of zero, or there is no candidate event (the defensive
`break`). -/
def loopDone (prefs : Fin n → List (Fin m)) (s : BMState n m) : Prop :=
  (¬ ∃ p, eps < s.personRem p) ∨ bmStep prefs s = none


/-- Conservation invariants of the eating simulation (exact arithmetic):
all quantities stay nonnegative, each row of `prob` plus the person's
remaining appetite is `1`, each column plus the item's remaining supply
is `1`. -/
structure Inv (s : BMState n m) : Prop where
  itemRem_nonneg : ∀ j, 0 ≤ s.itemRem j
  personRem_nonneg : ∀ p, 0 ≤ s.personRem p
  prob_nonneg : ∀ p j, 0 ≤ s.prob p j
  row_eq : ∀ p, (∑ j, s.prob p j) + s.personRem p = 1
  col_eq : ∀ j, (∑ p, s.prob p j) + s.itemRem j = 1

/-! # Theorems -/

/-! ## Sorting bridge for the validator -/

theorem insertionSort_eq_range'_iff_perm (l : List ℕ) (k : ℕ) :
    List.insertionSort (· ≤ ·) l = List.range' 1 k ↔ l.Perm (List.range' 1 k) := by
  constructor
  · intro h
    exact ((List.perm_insertionSort (· ≤ ·) l).symm.trans (by rw [h])).symm.symm
  · intro h
    refine List.eq_of_perm_of_sorted ((List.perm_insertionSort (· ≤ ·) l).trans h)
      (List.sorted_insertionSort (· ≤ ·) l) ?_
    exact List.pairwise_le_range' 1 k

/-- C4: for every input string and expected length `n`, the ranking
validator accepts exactly when, after whitespace removal, the text is
digits separated by single commas parsing to `n` numbers that form a
permutation of `1..n`. -/
theorem is_ranking_format_iff_rankingSpec (text : String) (nn : ℕ) :
    is_ranking_format text (some nn) = true ↔ rankingSpec text nn := by
  unfold is_ranking_format rankingSpec
  by_cases hm : matchesRanking (stripWs text).data
  · simp only [hm, Bool.not_true, Bool.false_eq_true, if_false]
    by_cases hlen : (parseNums (stripWs text).data).length = nn
    · simp only [hlen, ne_eq, not_true_eq_false, if_false, true_and,
        decide_eq_true_eq]
      exact insertionSort_eq_range'_iff_perm _ nn
    · simp only [ne_eq, hlen, not_false_eq_true, if_true, true_and]
      simp [hlen]
  · simp only [Bool.not_eq_true] at hm
    simp [hm]

/-! ## The sampler never picks a zero-probability index -/

theorem npChoice_spec : ∀ (row : List ℚ) (u : ℚ), 0 ≤ u → u < row.sum →
    (∀ x ∈ row, 0 ≤ x) →
    npChoice row u < row.length ∧ 0 < row.getD (npChoice row u) 0
  | [], u, h0, hlt, _ => by simp at hlt; exact absurd (h0.trans_lt hlt) (lt_irrefl 0)
  | a :: rest, u, h0, hlt, hnn => by
    by_cases hua : u < a
    · refine ⟨by simp [npChoice, hua], ?_⟩
      simp only [npChoice, hua, if_true]
      exact h0.trans_lt hua
    · push_neg at hua
      have hrest : u - a < rest.sum := by
        simp only [List.sum_cons] at hlt
        linarith
      have h0' : 0 ≤ u - a := by linarith
      have hnn' : ∀ x ∈ rest, 0 ≤ x := fun x hx => hnn x (List.mem_cons_of_mem _ hx)
      obtain ⟨ih1, ih2⟩ := npChoice_spec rest (u - a) h0' hrest hnn'
      refine ⟨?_, ?_⟩
      · simp only [npChoice, not_lt.2 hua, if_false, List.length_cons]
        omega
      · simpa only [npChoice, not_lt.2 hua, if_false, List.getD_cons_succ] using ih2

/-- C10: on a matrix of valid categorical rows, the sampler returns one
index per participant; every possible draw lands on an in-range index
carrying strictly positive probability in that participant's row. -/
theorem probabilities_to_assignments_spec (P : List (List ℚ)) (us : ℕ → ℚ)
    (hrows : ∀ row ∈ P, (∀ x ∈ row, 0 ≤ x) ∧ row.sum = 1)
    (hus : ∀ i, 0 ≤ us i ∧ us i < 1) :
    (probabilities_to_assignments us P).length = P.length ∧
    ∀ i row, P[i]? = some row →
      (probabilities_to_assignments us P)[i]? = some (npChoice row (us i)) ∧
      npChoice row (us i) < row.length ∧ 0 < row.getD (npChoice row (us i)) 0 := by
  constructor
  · simp [probabilities_to_assignments]
  · intro i row hrow
    have hi : i < P.length := by
      by_contra hge
      rw [List.getElem?_eq_none (le_of_not_lt hge)] at hrow
      exact Option.noConfusion hrow
    have hrowD : P.getD i [] = row := by
      rw [List.getD_eq_getElem?_getD, hrow]
      rfl
    have hmem : row ∈ P := by
      have := List.getElem?_mem hrow
      exact this
    obtain ⟨hnn, hsum⟩ := hrows row hmem
    have hu := hus i
    have hnp := npChoice_spec row (us i) hu.1 (by rw [hsum]; exact hu.2) hnn
    refine ⟨?_, hnp.1, hnp.2⟩
    have : (probabilities_to_assignments us P)[i]? =
        some (npChoice (P.getD i []) (us i)) := by
      simp [probabilities_to_assignments, List.getElem?_range, hi]
    rw [hrowD] at this
    exact this

/-! ## Session-store lemmas -/

theorem Store.set_lookup (store : Store) (gid : String) (v : Option Session)
    (g : String) : (store.set gid v) g = if g = gid then v else store g := rfl

/-- C7: `run_algorithm` fails and leaves the store untouched exactly in
the no-session, wrong-state and insufficient-rankings cases; otherwise it
stores the solver's matrix and moves the status to `algorithm_run`. -/
theorem run_algorithm_cases (store : Store) (gid : String) :
    (store gid = none → run_algorithm store gid = (.noActiveSession, store)) ∧
    (∀ s, store gid = some s → s.status ≠ .collecting →
      run_algorithm store gid = (.algorithmAlreadyRun, store)) ∧
    (∀ s, store gid = some s → s.status = .collecting →
      s.preferences.length < s.items.length →
      run_algorithm store gid =
        (.insufficientRankings s.items.length s.preferences.length, store)) ∧
    (∀ s, store gid = some s → s.status = .collecting →
      s.items.length ≤ s.preferences.length →
      run_algorithm store gid = (.runOk, store.set gid (some { s with
          probabilities := some (bmList s.items.length (s.preferences.map Prod.snd)),
          status := .algorithm_run }))) := by
  refine ⟨fun h => ?_, fun s hs hst => ?_, fun s hs hst hlt => ?_,
    fun s hs hst hge => ?_⟩
  · simp [run_algorithm, h]
  · simp [run_algorithm, hs, hst]
  · simp [run_algorithm, hs, hst, hlt]
  · simp [run_algorithm, hs, hst, not_lt.2 hge]

theorem run_algorithm_cases_witness :
    run_algorithm threeTwoStore "h" = (.noActiveSession, threeTwoStore) ∧
    run_algorithm twoTwoRan "g" = (.algorithmAlreadyRun, twoTwoRan) := by
  constructor
  · exact (run_algorithm_cases threeTwoStore "h").1 (by with_unfolding_all decide)
  · refine (run_algorithm_cases twoTwoRan "g").2.1
      { items := ["A", "B"],
        preferences := [("u1", [0, 1]), ("u2", [1, 0])],
        status := .algorithm_run,
        probabilities := some (bmList 2 [[0, 1], [1, 0]]),
        final_assignments := none } ?_ (by decide)
    with_unfolding_all decide

/-- C9: completing a session keeps it in the store: `start_session` for
the same group still fails (returning the store unchanged) until
`cancel_session` removes it; `cancel_session` succeeds in the completed
state, after which `start_session` succeeds again. -/
theorem completed_session_persists (store : Store) (gid : String) (s : Session)
    (us : ℕ → ℚ) (items newItems : List String)
    (hs : store gid = some s) (hst : s.status = .algorithm_run) :
    ∃ s', (make_final_assignments us store gid).2 gid = some s' ∧
      s'.status = .completed ∧
      start_session (make_final_assignments us store gid).2 gid items =
        (false, (make_final_assignments us store gid).2) ∧
      (cancel_session (make_final_assignments us store gid).2 gid).1 = true ∧
      (cancel_session (make_final_assignments us store gid).2 gid).2 gid = none ∧
      (start_session (cancel_session (make_final_assignments us store gid).2 gid).2
        gid newItems).1 = true := by
  have hrun : (make_final_assignments us store gid).2 =
      store.set gid (some { s with
        final_assignments :=
          some (probabilities_to_assignments us (s.probabilities.getD [])),
        status := .completed }) := by
    simp [make_final_assignments, hs, hst]
  refine ⟨{ s with
      final_assignments :=
        some (probabilities_to_assignments us (s.probabilities.getD [])),
      status := .completed },
    by rw [hrun]; simp [Store.set_lookup], rfl, ?_, ?_, ?_, ?_⟩
  · rw [hrun]
    simp [start_session, Store.set_lookup]
  · rw [hrun]
    simp [cancel_session, Store.set_lookup]
  · rw [hrun]
    simp [cancel_session, Store.set_lookup]
  · rw [hrun]
    simp [cancel_session, start_session, Store.set_lookup]

theorem completed_session_persists_witness :
    ∃ s', (make_final_assignments (fun _ => 0) twoTwoRan "g").2 "g" = some s' ∧
      s'.status = .completed ∧
      start_session (make_final_assignments (fun _ => 0) twoTwoRan "g").2 "g" ["C", "D"] =
        (false, (make_final_assignments (fun _ => 0) twoTwoRan "g").2) ∧
      (cancel_session (make_final_assignments (fun _ => 0) twoTwoRan "g").2 "g").1 = true ∧
      (cancel_session (make_final_assignments (fun _ => 0) twoTwoRan "g").2 "g").2 "g" = none ∧
      (start_session
        (cancel_session (make_final_assignments (fun _ => 0) twoTwoRan "g").2 "g").2
        "g" ["C", "D"]).1 = true := by
  refine completed_session_persists twoTwoRan "g"
    { items := ["A", "B"],
      preferences := [("u1", [0, 1]), ("u2", [1, 0])],
      status := .algorithm_run,
      probabilities := some (bmList 2 [[0, 1], [1, 0]]),
      final_assignments := none } (fun _ => 0) ["C", "D"] ["C", "D"] ?_ rfl
  with_unfolding_all decide

/-! ## Dict-update (`upsert`) lemmas and idempotent resubmission -/

theorem upsert_idem (l : List (String × List ℕ)) (k : String) (v : List ℕ) :
    upsert (upsert l k v) k v = upsert l k v := by
  induction l with
  | nil => simp [upsert]
  | cons hd tl ih =>
    obtain ⟨k', v'⟩ := hd
    by_cases h : k' = k
    · simp [upsert, h]
    · simp [upsert, h, ih]

theorem mem_keys_upsert (l : List (String × List ℕ)) (k a : String) (v : List ℕ) :
    a ∈ (upsert l k v).map Prod.fst ↔ a ∈ l.map Prod.fst ∨ a = k := by
  induction l with
  | nil => simp [upsert]
  | cons hd tl ih =>
    obtain ⟨k', v'⟩ := hd
    by_cases h : k' = k
    · subst h
      simp [upsert]
      tauto
    · simp [upsert, h, ih]
      tauto

theorem upsert_keys_nodup (l : List (String × List ℕ)) (k : String) (v : List ℕ)
    (h : (l.map Prod.fst).Nodup) : ((upsert l k v).map Prod.fst).Nodup := by
  induction l with
  | nil => simp [upsert]
  | cons hd tl ih =>
    obtain ⟨k', v'⟩ := hd
    simp only [List.map_cons, List.nodup_cons] at h
    by_cases hk : k' = k
    · subst hk
      simpa [upsert] using h
    · rw [show upsert ((k', v') :: tl) k v = (k', v') :: upsert tl k v by
        simp [upsert, hk]]
      refine List.nodup_cons.2 ⟨?_, ih h.2⟩
      rw [mem_keys_upsert]
      push_neg
      exact ⟨h.1, hk⟩

theorem upsert_length_mem (l : List (String × List ℕ)) (k : String) (v : List ℕ)
    (h : k ∈ l.map Prod.fst) : (upsert l k v).length = l.length := by
  induction l with
  | nil => simp at h
  | cons hd tl ih =>
    obtain ⟨k', v'⟩ := hd
    by_cases hk : k' = k
    · simp [upsert, hk]
    · simp only [List.map_cons, List.mem_cons] at h
      rcases h with h | h


      · exact absurd h.symm hk
      · simp [upsert, hk, ih h]

theorem upsert_length_not_mem (l : List (String × List ℕ)) (k : String) (v : List ℕ)
    (h : k ∉ l.map Prod.fst) : (upsert l k v).length = l.length + 1 := by
  induction l with
  | nil => simp [upsert]
  | cons hd tl ih =>
    obtain ⟨k', v'⟩ := hd
    simp only [List.map_cons, List.mem_cons, not_or] at h
    have hk : ¬ k' = k := fun hh => h.1 hh.symm
    simp [upsert, hk, ih h.2]

theorem stripWs_idem (t : String) : stripWs (stripWs t) = stripWs t := by
  simp [stripWs, List.filter_filter]

theorem is_ranking_format_some_length (t : String) (k : ℕ)
    (h : is_ranking_format t (some k) = true) :
    (parseNums (stripWs t).data).length = k := by
  unfold is_ranking_format at h
  by_cases hm : matchesRanking (stripWs t).data
  · simp only [hm, Bool.not_true, Bool.false_eq_true, if_false] at h
    by_contra hne
    simp [hne] at h
  · simp [hm] at h

theorem Store.set_set (store : Store) (gid : String) (v w : Option Session) :
    (store.set gid v).set gid w = store.set gid w := by
  funext g
  by_cases h : g = gid <;> simp [Store.set, h]

/-- Shape of a successful `submit_ranking`: the guards pass and the
participant's entry is upserted into the preference dict. -/
theorem submit_ranking_success (store : Store) (gid uid text : String) (s : Session)
    (rk : List ℕ) (hs : store gid = some s) (hst : s.status = .collecting)
    (hv : is_ranking_format (stripWs text) (some s.items.length) = true)
    (hrk : rk = (parseNums (stripWs text).data).map (fun x => x - 1)) :
    submit_ranking store gid uid text =
      ((true, .submitOk (upsert s.preferences uid rk).length s.items.length),
        store.set gid (some { s with preferences := upsert s.preferences uid rk })) := by
  have hlen : rk.length = s.items.length := by
    rw [hrk, List.length_map]
    have h := is_ranking_format_some_length (stripWs text) s.items.length hv
    rwa [stripWs_idem] at h
  subst hrk
  simp [submit_ranking, hs, hst, hv, hlen]

/-- C6: resubmitting the same ranking is idempotent (same reply, same
store); a successful submission overwrites rather than duplicates the
participant's entry, keeps the keys distinct (so the collected count is
the number of distinct participants), and reports the new count. -/
theorem submit_resubmission_overwrites :
    (∀ store gid uid text,
      submit_ranking (submit_ranking store gid uid text).2 gid uid text =
        submit_ranking store gid uid text) ∧
    (∀ store gid uid text s s',
      store gid = some s →
      (submit_ranking store gid uid text).1.1 = true →
      (submit_ranking store gid uid text).2 gid = some s' →
      ((s.preferences.map Prod.fst).Nodup → (s'.preferences.map Prod.fst).Nodup ∧
        s'.preferences.length = (s'.preferences.map Prod.fst).toFinset.card) ∧
      (uid ∈ s.preferences.map Prod.fst →
        s'.preferences.length = s.preferences.length) ∧
      (uid ∉ s.preferences.map Prod.fst →
        s'.preferences.length = s.preferences.length + 1) ∧
      (submit_ranking store gid uid text).1.2 =
        .submitOk s'.preferences.length s.items.length) := by
  constructor
  · intro store gid uid text
    cases h1 : store gid with
    | none => simp [submit_ranking, h1]
    | some s =>
      by_cases hst : s.status = .collecting
      · cases hv : is_ranking_format (stripWs text) (some s.items.length) with
        | false => simp [submit_ranking, h1, hst, hv]
        | true =>
          set rk := (parseNums (stripWs text).data).map (fun x => x - 1) with hrk
          set s₁ : Session := { s with preferences := upsert s.preferences uid rk }
            with hs₁
          rw [submit_ranking_success store gid uid text s rk h1 hst hv hrk]
          have hlook : (store.set gid (some s₁)) gid = some s₁ := by
            simp [Store.set]
          rw [submit_ranking_success _ gid uid text s₁ rk hlook hst hv hrk]
          rw [hs₁]
          rw [show ({ s with preferences := upsert s.preferences uid rk} :
            Session).preferences = upsert s.preferences uid rk from rfl]
          rw [upsert_idem, Store.set_set]
      · simp [submit_ranking, h1, hst]
  · intro store gid uid text s s' hs hsucc hs'
    cases hst : s.status with
    | algorithm_run => simp [submit_ranking, hs, hst] at hsucc
    | completed => simp [submit_ranking, hs, hst] at hsucc
    | collecting =>
      cases hv : is_ranking_format (stripWs text) (some s.items.length) with
      | false => simp [submit_ranking, hs, hst, hv] at hsucc
      | true =>
        set rk := (parseNums (stripWs text).data).map (fun x => x - 1) with hrk
        rw [submit_ranking_success store gid uid text s rk hs hst hv hrk] at hs' ⊢
        simp only [Store.set, if_pos rfl, if_true, eq_self_iff_true,
          Option.some.injEq] at hs'
        have hpref : s'.preferences = upsert s.preferences uid rk := by
          rw [← hs']
        refine ⟨fun hnd => ?_, fun hmem => ?_, fun hnmem => ?_, ?_⟩
        · have hnd' := upsert_keys_nodup s.preferences uid
            ((parseNums (stripWs text).data).map (fun x => x - 1)) hnd
          rw [← hpref] at hnd'
          refine ⟨hnd', ?_⟩
          rw [List.toFinset_card_of_nodup hnd', List.length_map]
        · rw [hpref, upsert_length_mem _ _ _ hmem]
        · rw [hpref, upsert_length_not_mem _ _ _ hnmem]
        · rw [hpref]

theorem submit_resubmission_overwrites_witness :
    submit_ranking (submit_ranking twoTwoStore "g" "u1" "2,1").2 "g" "u1" "2,1" =
      submit_ranking twoTwoStore "g" "u1" "2,1" ∧
    twoTwoResub.preferences.length = twoTwoSession.preferences.length := by
  constructor
  · exact submit_resubmission_overwrites.1 twoTwoStore "g" "u1" "2,1"
  · exact (submit_resubmission_overwrites.2 twoTwoStore "g" "u1" "2,1"
      twoTwoSession twoTwoResub (by with_unfolding_all decide)
      (by with_unfolding_all decide) (by with_unfolding_all decide)).2.1
      (by decide)

/-! ## Shapes of the store after each operation, and the state machine -/

theorem set_lookup_cases (store : Store) (gid' : String) (v : Option Session)
    (gid : String) (s s' : Session) (hs : store gid = some s)
    (hs' : (store.set gid' v) gid = some s') :
    (gid = gid' ∧ v = some s') ∨ s' = s := by
  rw [Store.set_lookup] at hs'
  by_cases h : gid = gid'
  · rw [if_pos h] at hs'
    exact .inl ⟨h, hs'⟩
  · rw [if_neg h] at hs'
    rw [hs] at hs'
    exact .inr (Option.some.inj hs').symm

theorem start_session_shape (store : Store) (gid' : String) (items : List String) :
    (start_session store gid' items).2 = store ∨
    (store gid' = none ∧ (start_session store gid' items).2 =
      store.set gid' (some ⟨items, [], .collecting, none, none⟩)) := by
  cases h : store gid' with
  | none => right; exact ⟨rfl, by simp [start_session, h]⟩
  | some t => left; simp [start_session, h]

theorem cancel_session_shape (store : Store) (gid' : String) :
    (cancel_session store gid').2 = store ∨
    (cancel_session store gid').2 = store.set gid' none := by
  cases h : store gid' with
  | none => left; simp [cancel_session, h]
  | some t => right; simp [cancel_session, h]

theorem submit_ranking_shape (store : Store) (gid' uid text : String) :
    (submit_ranking store gid' uid text).2 = store ∨
    ∃ t rk, store gid' = some t ∧ t.status = .collecting ∧
      (submit_ranking store gid' uid text).2 =
        store.set gid' (some { t with preferences := upsert t.preferences uid rk }) := by
  cases h : store gid' with
  | none => left; simp [submit_ranking, h]
  | some t =>
    by_cases hst : t.status = .collecting
    · cases hv : is_ranking_format (stripWs text) (some t.items.length) with
      | false => left; simp [submit_ranking, h, hst, hv]
      | true =>
        right
        exact ⟨t, _, rfl, hst,
          by rw [submit_ranking_success store gid' uid text t _ h hst hv rfl]⟩
    · left; simp [submit_ranking, h, hst]

theorem run_algorithm_shape (store : Store) (gid' : String) :
    (run_algorithm store gid').2 = store ∨
    ∃ t, store gid' = some t ∧ t.status = .collecting ∧
      (run_algorithm store gid').2 = store.set gid' (some { t with
        probabilities := some (bmList t.items.length (t.preferences.map Prod.snd)),
        status := .algorithm_run }) := by
  cases h : store gid' with
  | none => left; simp [run_algorithm, h]
  | some t =>
    by_cases hst : t.status = .collecting
    · by_cases hlt : t.preferences.length < t.items.length
      · left; simp [run_algorithm, h, hst, hlt]
      · right; exact ⟨t, rfl, hst, by simp [run_algorithm, h, hst, hlt]⟩
    · left; simp [run_algorithm, h, hst]

theorem make_final_assignments_shape (us : ℕ → ℚ) (store : Store) (gid' : String) :
    (make_final_assignments us store gid').2 = store ∨
    ∃ t, store gid' = some t ∧ t.status = .algorithm_run ∧
      (make_final_assignments us store gid').2 = store.set gid' (some { t with
        final_assignments :=
          some (probabilities_to_assignments us (t.probabilities.getD [])),
        status := .completed }) := by
  cases h : store gid' with
  | none => left; simp [make_final_assignments, h]
  | some t =>
    by_cases hst : t.status = .algorithm_run
    · right; exact ⟨t, rfl, hst, by simp [make_final_assignments, h, hst]⟩
    · left; simp [make_final_assignments, h, hst]

theorem applyOp_rank_mono (op : Op) (store : Store) (gid : String)
    (s s' : Session) (hs : store gid = some s)
    (hs' : (applyOp store op) gid = some s') :
    s.status.rank ≤ s'.status.rank := by
  cases op with
  | start gid' items =>
    rcases start_session_shape store gid' items with h | ⟨hnone, h⟩
    · rw [show applyOp store (.start gid' items) = (start_session store gid' items).2
        from rfl, h, hs] at hs'
      rw [Option.some.inj hs']
    · rw [show applyOp store (.start gid' items) = (start_session store gid' items).2
        from rfl, h] at hs'
      rcases set_lookup_cases store gid' _ gid s s' hs hs' with ⟨hg, _⟩ | he
      · rw [hg] at hs
        rw [hnone] at hs
        exact Option.noConfusion hs
      · rw [he]
  | cancel gid' =>
    rcases cancel_session_shape store gid' with h | h <;>
      rw [show applyOp store (.cancel gid') = (cancel_session store gid').2
        from rfl, h] at hs'
    · rw [hs] at hs'
      rw [Option.some.inj hs']
    · rcases set_lookup_cases store gid' _ gid s s' hs hs' with ⟨_, hv⟩ | he
      · exact Option.noConfusion hv
      · rw [he]
  | submit gid' uid text =>
    rcases submit_ranking_shape store gid' uid text with h | ⟨t, rk, ht, hst, h⟩ <;>
      rw [show applyOp store (.submit gid' uid text) =
        (submit_ranking store gid' uid text).2 from rfl, h] at hs'
    · rw [hs] at hs'
      rw [Option.some.inj hs']
    · rcases set_lookup_cases store gid' _ gid s s' hs hs' with ⟨hg, hv⟩ | he
      · rw [hg] at hs
        rw [ht] at hs
        have hts : t = s := Option.some.inj hs
        have : s'.status = t.status := by
          rw [← Option.some.inj hv]
        rw [this, hts]
      · rw [he]
  | runAlg gid' =>
    rcases run_algorithm_shape store gid' with h | ⟨t, ht, hst, h⟩ <;>
      rw [show applyOp store (.runAlg gid') = (run_algorithm store gid').2
        from rfl, h] at hs'
    · rw [hs] at hs'
      rw [Option.some.inj hs']
    · rcases set_lookup_cases store gid' _ gid s s' hs hs' with ⟨hg, hv⟩ | he
      · rw [hg] at hs
        rw [ht] at hs
        have hts : t = s := Option.some.inj hs
        have hrs : s'.status = .algorithm_run := by
          rw [← Option.some.inj hv]
        rw [hrs, ← hts, hst]
        decide
      · rw [he]
  | makeAssign gid' us =>
    rcases make_final_assignments_shape us store gid' with h | ⟨t, ht, hst, h⟩ <;>
      rw [show applyOp store (.makeAssign gid' us) =
        (make_final_assignments us store gid').2 from rfl, h] at hs'
    · rw [hs] at hs'
      rw [Option.some.inj hs']
    · rcases set_lookup_cases store gid' _ gid s s' hs hs' with ⟨hg, hv⟩ | he
      · rw [hg] at hs
        rw [ht] at hs
        have hts : t = s := Option.some.inj hs
        have hrs : s'.status = .completed := by
          rw [← Option.some.inj hv]
        rw [hrs, ← hts, hst]
        decide
      · rw [he]
  | getStatus gid' =>
    rw [show applyOp store (.getStatus gid') = store from rfl, hs] at hs'
    rw [Option.some.inj hs']

theorem applyOps_rank_mono (ops : List Op) :
    ∀ (store : Store) (gid : String) (s s' : Session), store gid = some s →
    (∀ k, ((ops.take k).foldl applyOp store) gid ≠ none) →
    (ops.foldl applyOp store) gid = some s' →
    s.status.rank ≤ s'.status.rank := by
  induction ops with
  | nil =>
    intro store gid s s' hs _ hs'
    rw [List.foldl_nil, hs] at hs'
    rw [Option.some.inj hs']
  | cons op rest ih =>
    intro store gid s s' hs hpres hs'
    have h1 : (applyOp store op) gid ≠ none := by
      have := hpres 1
      simpa using this
    obtain ⟨s₁, hs₁⟩ : ∃ s₁, (applyOp store op) gid = some s₁ := by
      cases hh : (applyOp store op) gid with
      | none => exact absurd hh h1
      | some s₁ => exact ⟨s₁, rfl⟩
    refine le_trans (applyOp_rank_mono op store gid s s₁ hs hs₁) ?_
    refine ih (applyOp store op) gid s₁ s' hs₁ (fun k => ?_) ?_
    · have := hpres (k + 1)
      simpa using this
    · simpa using hs'

/-- C5: the status only moves forward. `run_algorithm` fails with the
wrong-state reply whenever the status is not `collecting` (so a second
run fails), `make_final_assignments` fails with the wrong-state reply
unless the status is `algorithm_run`, no sequence of operations lowers a
surviving session's status rank, and the only step that produces an
`algorithm_run` session from another state is a `runAlg` of that group
from `collecting`. -/
theorem status_forward_only :
    (∀ (store : Store) (gid : String) (s : Session), store gid = some s →
      s.status ≠ .collecting →
      run_algorithm store gid = (.algorithmAlreadyRun, store)) ∧
    (∀ (store : Store) (gid : String) (s : Session) (us : ℕ → ℚ),
      store gid = some s → s.status ≠ .algorithm_run →
      make_final_assignments us store gid = (.runAlgorithmFirst, store)) ∧
    (∀ (ops : List Op) (store : Store) (gid : String) (s s' : Session),
      store gid = some s →
      (∀ k, ((ops.take k).foldl applyOp store) gid ≠ none) →
      (ops.foldl applyOp store) gid = some s' →
      s.status.rank ≤ s'.status.rank) ∧
    (∀ (op : Op) (store : Store) (gid : String) (s s' : Session),
      store gid = some s → (applyOp store op) gid = some s' →
      s'.status = .algorithm_run →
      s.status = .algorithm_run ∨ (op = .runAlg gid ∧ s.status = .collecting)) := by
  refine ⟨?_, ?_, ?_, ?_⟩
  · intro store gid s hs hst
    simp [run_algorithm, hs, hst]
  · intro store gid s us hs hst
    simp [make_final_assignments, hs, hst]
  · exact fun ops => applyOps_rank_mono ops
  · intro op store gid s s' hs hs' hrun
    cases op with
    | start gid' items =>
      rcases start_session_shape store gid' items with h | ⟨hnone, h⟩ <;>
        rw [show applyOp store (.start gid' items) =
          (start_session store gid' items).2 from rfl, h] at hs'
      · rw [hs] at hs'
        left
        rw [Option.some.inj hs']
        exact hrun
      · rcases set_lookup_cases store gid' _ gid s s' hs hs' with ⟨hg, hv⟩ | he
        · rw [hg, hnone] at hs
          exact Option.noConfusion hs
        · left
          rw [he] at hrun
          exact hrun
    | cancel gid' =>
      rcases cancel_session_shape store gid' with h | h <;>
        rw [show applyOp store (.cancel gid') = (cancel_session store gid').2
          from rfl, h] at hs'
      · rw [hs] at hs'
        left
        rw [Option.some.inj hs']
        exact hrun
      · rcases set_lookup_cases store gid' _ gid s s' hs hs' with ⟨_, hv⟩ | he
        · exact Option.noConfusion hv
        · left
          rw [he] at hrun
          exact hrun
    | submit gid' uid text =>
      rcases submit_ranking_shape store gid' uid text with h | ⟨t, rk, ht, hst, h⟩ <;>
        rw [show applyOp store (.submit gid' uid text) =
          (submit_ranking store gid' uid text).2 from rfl, h] at hs'
      · rw [hs] at hs'
        left
        rw [Option.some.inj hs']
        exact hrun
      · rcases set_lookup_cases store gid' _ gid s s' hs hs' with ⟨hg, hv⟩ | he
        · rw [hg] at hs
          rw [ht] at hs
          left
          have hts : s'.status = t.status := by
            rw [← Option.some.inj hv]
          rw [← Option.some.inj hs, ← hts]
          exact hrun
        · left
          rw [he] at hrun
          exact hrun
    | runAlg gid' =>
      rcases run_algorithm_shape store gid' with h | ⟨t, ht, hst, h⟩ <;>
        rw [show applyOp store (.runAlg gid') = (run_algorithm store gid').2
          from rfl, h] at hs'
      · rw [hs] at hs'
        left
        rw [Option.some.inj hs']
        exact hrun
      · rcases set_lookup_cases store gid' _ gid s s' hs hs' with ⟨hg, hv⟩ | he
        · right
          rw [hg] at hs
          rw [ht] at hs
          exact ⟨by rw [hg], by rw [← Option.some.inj hs]; exact hst⟩
        · left
          rw [he] at hrun
          exact hrun
    | makeAssign gid' us =>
      rcases make_final_assignments_shape us store gid' with h | ⟨t, ht, hst, h⟩ <;>
        rw [show applyOp store (.makeAssign gid' us) =
          (make_final_assignments us store gid').2 from rfl, h] at hs'
      · rw [hs] at hs'
        left
        rw [Option.some.inj hs']
        exact hrun
      · rcases set_lookup_cases store gid' _ gid s s' hs hs' with ⟨hg, hv⟩ | he
        · have hts : s'.status = .completed := by
            rw [← Option.some.inj hv]
          rw [hts] at hrun
          exact absurd hrun (by decide)
        · left
          rw [he] at hrun
          exact hrun
    | getStatus gid' =>
      rw [show applyOp store (.getStatus gid') = store from rfl, hs] at hs'
      left
      rw [Option.some.inj hs']
      exact hrun

theorem status_forward_only_witness :
    make_final_assignments (fun _ => 0) twoTwoStore "g" =
      (.runAlgorithmFirst, twoTwoStore) ∧
    Status.rank twoTwoSession.status ≤ Status.rank twoTwoRanSession.status := by
  constructor
  · exact status_forward_only.2.1 twoTwoStore "g" twoTwoSession (fun _ => 0)
      (by with_unfolding_all decide) (by decide)
  · refine status_forward_only.2.2.1 [Op.runAlg "g"] twoTwoStore "g" twoTwoSession
      twoTwoRanSession (by with_unfolding_all decide) (fun k => ?_)
      (by with_unfolding_all decide)
    cases k with
    | zero => with_unfolding_all decide
    | succ k =>
      rw [List.take_succ_cons, List.take_nil]
      with_unfolding_all decide

/-! ## The classic 3×3 case and the 3-participants, 2-items column sums -/

/-- C1 counterexample: on the classic profile the solver does NOT return
rows `[1/2, 0, 1/2]`, `[1/2, 0, 1/2]`, `[0, 1, 0]`. -/
theorem classic_case_counterexample :
    ¬ ((List.finRange 3).map (fun i => (List.finRange 3).map
        (fun j => bogomolnaia_moulin classicPrefs i j)) =
      [[1/2, 0, 1/2], [1/2, 0, 1/2], [0, 1, 0]]) := by
  with_unfolding_all decide

/-- C1 amended: on the classic profile the solver returns the
probabilistic-serial allocation `[1/2, 1/6, 1/3]` for participants 1 and
2 and `[0, 2/3, 1/3]` for participant 3. -/
theorem classic_case_allocation :
    (List.finRange 3).map (fun i => (List.finRange 3).map
        (fun j => bogomolnaia_moulin classicPrefs i j)) =
      [[1/2, 1/6, 1/3], [1/2, 1/6, 1/3], [0, 2/3, 1/3]] := by
  with_unfolding_all decide

/-- C3 counterexample: with three participants and two items (all ranking
`A>B`), `run_algorithm` succeeds and column 0 of the stored matrix sums
to `3/2 > 1 + 1e-6`. -/
theorem column_sum_counterexample :
    (run_algorithm threeTwoStore "g").1 = .runOk ∧
    ¬ (colSumList (storedMatrix (run_algorithm threeTwoStore "g").2 "g") 0 ≤
        1 + 1 / 1000000) := by
  with_unfolding_all decide

theorem probabilities_to_assignments_spec_witness :
    (probabilities_to_assignments (fun _ => (1:ℚ)/2) [[1/2, 1/2], [0, 1]]).length = 2 ∧
    npChoice [0, 1] ((1:ℚ)/2) < 2 ∧
    0 < List.getD [(0:ℚ), 1] (npChoice [0, 1] ((1:ℚ)/2)) 0 := by
  have h := probabilities_to_assignments_spec [[1/2, 1/2], [0, 1]] (fun _ => (1:ℚ)/2)
    (by with_unfolding_all decide)
    (fun i => show (0:ℚ) ≤ 1/2 ∧ (1:ℚ)/2 < 1 by with_unfolding_all decide)
  obtain ⟨ha, hlt, hpos⟩ := h.2 1 [0, 1] (by with_unfolding_all decide)
  exact ⟨h.1, hlt, hpos⟩

/-! ## Solver analysis: the minimum of the candidate list -/

theorem eps_pos : (0:ℚ) < eps := by norm_num [eps]

theorem eps_lt_one : eps < 1 := by norm_num [eps]

theorem foldl_min_mem (as : List ℚ) (a : ℚ) : as.foldl min a ∈ a :: as := by
  induction as generalizing a with
  | nil => simp
  | cons b bs ih =>
    have h := ih (min a b)
    rw [List.foldl_cons]
    rcases List.mem_cons.1 h with h | h
    · rw [h]
      rcases min_choice a b with hm | hm <;> rw [hm] <;> simp
    · simp [h]

theorem foldl_min_le (as : List ℚ) (a : ℚ) :
    as.foldl min a ≤ a ∧ ∀ b ∈ as, as.foldl min a ≤ b := by
  induction as generalizing a with
  | nil => simp
  | cons c cs ih =>
    obtain ⟨h1, h2⟩ := ih (min a c)
    rw [List.foldl_cons]
    refine ⟨le_trans h1 (min_le_left a c), ?_⟩
    intro b hb
    rcases List.mem_cons.1 hb with rfl | hb
    · exact le_trans h1 (min_le_right a b)
    · exact h2 b hb

theorem listMin_mem (l : List ℚ) (a : ℚ) (h : listMin l = some a) : a ∈ l := by
  cases l with
  | nil => exact Option.noConfusion h
  | cons c cs =>
    rw [← Option.some.inj h]
    exact foldl_min_mem cs c

theorem listMin_le (l : List ℚ) (a : ℚ) (h : listMin l = some a) :
    ∀ b ∈ l, a ≤ b := by
  cases l with
  | nil => exact Option.noConfusion h
  | cons c cs =>
    intro b hb
    rw [← Option.some.inj h]
    rcases List.mem_cons.1 hb with rfl | hb
    · exact (foldl_min_le cs b).1
    · exact (foldl_min_le cs c).2 b hb

theorem listMin_eq_none_iff (l : List ℚ) : listMin l = none ↔ l = [] := by
  cases l <;> simp [listMin]

/-! ## Solver analysis: top choices, eaters and the event duration -/

theorem topOf_active (prefs : Fin n → List (Fin m)) (s : BMState n m)
    (p : Fin n) (j : Fin m) (h : topOf prefs s p = some j) :
    eps < s.personRem p := by
  unfold topOf at h
  split at h
  · assumption
  · exact Option.noConfusion h

theorem topOf_item_fresh (prefs : Fin n → List (Fin m)) (s : BMState n m)
    (p : Fin n) (j : Fin m) (h : topOf prefs s p = some j) :
    eps < s.itemRem j := by
  unfold topOf at h
  split at h
  · have h2 := List.find?_some h
    simp only [decide_eq_true_eq] at h2
    exact h2
  · exact Option.noConfusion h

theorem topOf_isSome_active (prefs : Fin n → List (Fin m)) (s : BMState n m)
    (p : Fin n) (h : (topOf prefs s p).isSome) : eps < s.personRem p := by
  unfold topOf at h
  split at h
  · assumption
  · exact Bool.noConfusion h

theorem eatersCnt_pos_iff (prefs : Fin n → List (Fin m)) (s : BMState n m)
    (j : Fin m) : 0 < eatersCnt prefs s j ↔ ∃ p, topOf prefs s p = some j := by
  unfold eatersCnt
  rw [Finset.card_pos, Finset.filter_nonempty_iff]
  simp

theorem dt_le_item (prefs : Fin n → List (Fin m)) (s : BMState n m) (dt : ℚ)
    (hdt : listMin (dtCands prefs s) = some dt) (j : Fin m)
    (hj : 0 < eatersCnt prefs s j) :
    dt ≤ s.itemRem j / (eatersCnt prefs s j : ℚ) := by
  refine listMin_le _ _ hdt _ ?_
  refine List.mem_append_left _ (List.mem_map.2 ⟨j, ?_, rfl⟩)
  exact List.mem_filter.2 ⟨List.mem_finRange j, by simpa using hj⟩

theorem dt_le_person (prefs : Fin n → List (Fin m)) (s : BMState n m) (dt : ℚ)
    (hdt : listMin (dtCands prefs s) = some dt) (p : Fin n)
    (hp : (topOf prefs s p).isSome) : dt ≤ s.personRem p := by
  refine listMin_le _ _ hdt _ ?_
  refine List.mem_append_right _ (List.mem_map.2 ⟨p, ?_, rfl⟩)
  exact List.mem_filter.2 ⟨List.mem_finRange p, by simpa using hp⟩

theorem dt_pos (prefs : Fin n → List (Fin m)) (s : BMState n m) (dt : ℚ)
    (hdt : listMin (dtCands prefs s) = some dt) : 0 < dt := by
  have hmem := listMin_mem _ _ hdt
  rcases List.mem_append.1 hmem with h | h
  · obtain ⟨j, hj, rfl⟩ := List.mem_map.1 h
    have hj' : 0 < eatersCnt prefs s j := by
      simpa using (List.mem_filter.1 hj).2
    obtain ⟨p, hp⟩ := (eatersCnt_pos_iff prefs s j).1 hj'
    have hfresh := topOf_item_fresh prefs s p j hp
    exact div_pos (lt_trans eps_pos hfresh) (by exact_mod_cast hj')
  · obtain ⟨p, hp, rfl⟩ := List.mem_map.1 h
    have hp' : (topOf prefs s p).isSome := by
      simpa using (List.mem_filter.1 hp).2
    exact lt_trans eps_pos (topOf_isSome_active prefs s p hp')

/-! ## Solver analysis: one event never clamps under exact arithmetic -/

theorem advance_itemRem (prefs : Fin n → List (Fin m)) (s : BMState n m) (dt : ℚ)
    (hdt : listMin (dtCands prefs s) = some dt) (j : Fin m) :
    (advance prefs s dt).itemRem j =
      if 0 < eatersCnt prefs s j then
        s.itemRem j - dt * (eatersCnt prefs s j : ℚ)
      else s.itemRem j := by
  unfold advance
  by_cases h : 0 < eatersCnt prefs s j
  · have hle : dt * (eatersCnt prefs s j : ℚ) ≤ s.itemRem j := by
      have hcast : (0:ℚ) < (eatersCnt prefs s j : ℚ) := by exact_mod_cast h
      calc dt * (eatersCnt prefs s j : ℚ)
          ≤ (s.itemRem j / (eatersCnt prefs s j : ℚ)) * (eatersCnt prefs s j : ℚ) :=
            mul_le_mul_of_nonneg_right (dt_le_item prefs s dt hdt j h) hcast.le
        _ = s.itemRem j := div_mul_cancel₀ _ hcast.ne'
    simp only [h, if_true]
    rw [if_neg (not_lt.2 (sub_nonneg.2 hle))]
  · simp [h]

theorem advance_personRem (prefs : Fin n → List (Fin m)) (s : BMState n m) (dt : ℚ)
    (hdt : listMin (dtCands prefs s) = some dt) (p : Fin n) :
    (advance prefs s dt).personRem p =
      if (topOf prefs s p).isSome then s.personRem p - dt else s.personRem p := by
  unfold advance
  by_cases h : (topOf prefs s p).isSome
  · have hle := dt_le_person prefs s dt hdt p h
    simp only [h, if_true]
    rw [if_neg (not_lt.2 (sub_nonneg.2 hle))]
  · simp [h]

theorem advance_prob (prefs : Fin n → List (Fin m)) (s : BMState n m) (dt : ℚ)
    (p : Fin n) (j : Fin m) :
    (advance prefs s dt).prob p j =
      if topOf prefs s p = some j then s.prob p j + dt else s.prob p j := rfl

theorem bmStep_some (prefs : Fin n → List (Fin m)) (s s' : BMState n m)
    (h : bmStep prefs s = some s') :
    ∃ dt, listMin (dtCands prefs s) = some dt ∧ s' = advance prefs s dt := by
  unfold bmStep at h
  cases hm : listMin (dtCands prefs s) with
  | none => rw [hm] at h; exact Option.noConfusion h
  | some dt => rw [hm] at h; exact ⟨dt, rfl, (Option.some.inj h).symm⟩

/-! ## Solver analysis: each event retires an active participant or item -/

theorem advance_itemRem_le (prefs : Fin n → List (Fin m)) (s : BMState n m)
    (dt : ℚ) (hdt : listMin (dtCands prefs s) = some dt) (j : Fin m) :
    (advance prefs s dt).itemRem j ≤ s.itemRem j := by
  rw [advance_itemRem prefs s dt hdt j]
  split
  · have h1 := dt_pos prefs s dt hdt
    have h2 : (0:ℚ) ≤ dt * (eatersCnt prefs s j : ℚ) :=
      mul_nonneg h1.le (Nat.cast_nonneg _)
    linarith
  · exact le_refl _

theorem advance_personRem_le (prefs : Fin n → List (Fin m)) (s : BMState n m)
    (dt : ℚ) (hdt : listMin (dtCands prefs s) = some dt) (p : Fin n) :
    (advance prefs s dt).personRem p ≤ s.personRem p := by
  rw [advance_personRem prefs s dt hdt p]
  split
  · have h1 := dt_pos prefs s dt hdt
    linarith
  · exact le_refl _

theorem bmStep_activeCount_lt (prefs : Fin n → List (Fin m)) (s s' : BMState n m)
    (hstep : bmStep prefs s = some s') : activeCount s' < activeCount s := by
  obtain ⟨dt, hdt, rfl⟩ := bmStep_some prefs s s' hstep
  have hPA : PA (advance prefs s dt) ⊆ PA s := by
    intro p hp
    simp only [PA, Finset.mem_filter, Finset.mem_univ, true_and] at hp ⊢
    exact lt_of_lt_of_le hp (advance_personRem_le prefs s dt hdt p)
  have hIA : IA (advance prefs s dt) ⊆ IA s := by
    intro j hj
    simp only [IA, Finset.mem_filter, Finset.mem_univ, true_and] at hj ⊢
    exact lt_of_lt_of_le hj (advance_itemRem_le prefs s dt hdt j)
  rcases List.mem_append.1 (listMin_mem _ _ hdt) with h | h
  · obtain ⟨j, hj, hjeq⟩ := List.mem_map.1 h
    have hj' : 0 < eatersCnt prefs s j := by
      simpa using (List.mem_filter.1 hj).2
    have hcast : (0:ℚ) < (eatersCnt prefs s j : ℚ) := by exact_mod_cast hj'
    have hz : (advance prefs s dt).itemRem j = 0 := by
      rw [advance_itemRem prefs s dt hdt j, if_pos hj', ← hjeq,
        div_mul_cancel₀ _ hcast.ne']
      ring
    obtain ⟨p, hp⟩ := (eatersCnt_pos_iff prefs s j).1 hj'
    have hjin : j ∈ IA s := by
      simp only [IA, Finset.mem_filter, Finset.mem_univ, true_and]
      exact topOf_item_fresh prefs s p j hp
    have hjout : j ∉ IA (advance prefs s dt) := by
      simp only [IA, Finset.mem_filter, Finset.mem_univ, true_and, hz]
      exact not_lt.2 eps_pos.le
    have hlt : (IA (advance prefs s dt)).card < (IA s).card :=
      Finset.card_lt_card ⟨hIA, fun hsub => hjout (hsub hjin)⟩
    have hle : (PA (advance prefs s dt)).card ≤ (PA s).card :=
      Finset.card_le_card hPA
    unfold activeCount
    omega
  · obtain ⟨p, hp, hpeq⟩ := List.mem_map.1 h
    have hp' : (topOf prefs s p).isSome := by
      simpa using (List.mem_filter.1 hp).2
    have hz : (advance prefs s dt).personRem p = 0 := by
      rw [advance_personRem prefs s dt hdt p, if_pos hp', ← hpeq]
      ring
    have hpin : p ∈ PA s := by
      simp only [PA, Finset.mem_filter, Finset.mem_univ, true_and]
      exact topOf_isSome_active prefs s p hp'
    have hpout : p ∉ PA (advance prefs s dt) := by
      simp only [PA, Finset.mem_filter, Finset.mem_univ, true_and, hz]
      exact not_lt.2 eps_pos.le
    have hlt : (PA (advance prefs s dt)).card < (PA s).card :=
      Finset.card_lt_card ⟨hPA, fun hsub => hpout (hsub hpin)⟩
    have hle : (IA (advance prefs s dt)).card ≤ (IA s).card :=
      Finset.card_le_card hIA
    unfold activeCount
    omega

/-! ## Solver analysis: the loop reaches its exit state within n + m events -/

theorem bmLoop_done_fix (prefs : Fin n → List (Fin m)) (s : BMState n m)
    (h : loopDone prefs s) : ∀ fuel, bmLoop prefs fuel s = s := by
  intro fuel
  cases fuel with
  | zero => rfl
  | succ fuel =>
    by_cases hc : ∃ p, eps < s.personRem p
    · rcases h with h | h
      · exact absurd hc h
      · simp [bmLoop, hc, h]
    · simp [bmLoop, hc]

theorem bmLoop_done_of_measure (prefs : Fin n → List (Fin m)) :
    ∀ (fuel : ℕ) (s : BMState n m), activeCount s ≤ fuel →
    loopDone prefs (bmLoop prefs fuel s) := by
  intro fuel
  induction fuel with
  | zero =>
    intro s h
    left
    rintro ⟨p, hp⟩
    have hpin : p ∈ PA s := by
      simp only [PA, Finset.mem_filter, Finset.mem_univ, true_and]
      exact hp
    have : 0 < (PA s).card := Finset.card_pos.2 ⟨p, hpin⟩
    unfold activeCount at h
    omega
  | succ fuel ih =>
    intro s h
    by_cases hc : ∃ p, eps < s.personRem p
    · cases hstep : bmStep prefs s with
      | none =>
        rw [show bmLoop prefs (fuel + 1) s = s by simp [bmLoop, hc, hstep]]
        exact .inr hstep
      | some s' =>
        rw [show bmLoop prefs (fuel + 1) s = bmLoop prefs fuel s' by
          simp [bmLoop, hc, hstep]]
        have := bmStep_activeCount_lt prefs s s' hstep
        exact ih s' (by omega)
    · rw [show bmLoop prefs (fuel + 1) s = s by simp [bmLoop, hc]]
      exact .inl hc

theorem activeCount_le_add (s : BMState n m) : activeCount s ≤ n + m := by
  unfold activeCount
  have h1 : (PA s).card ≤ n := by
    calc (PA s).card ≤ Finset.univ.card := Finset.card_filter_le _ _
      _ = n := by simp
  have h2 : (IA s).card ≤ m := by
    calc (IA s).card ≤ Finset.univ.card := Finset.card_filter_le _ _
      _ = m := by simp
  omega

theorem bmLoop_add (prefs : Fin n → List (Fin m)) (a b : ℕ) :
    ∀ s, bmLoop prefs (a + b) s = bmLoop prefs b (bmLoop prefs a s) := by
  induction a with
  | zero =>
    intro s
    rw [Nat.zero_add]
    rfl
  | succ a ih =>
    intro s
    rw [show a + 1 + b = (a + b) + 1 by omega]
    by_cases hc : ∃ p, eps < s.personRem p
    · cases hstep : bmStep prefs s with
      | none =>
        rw [show bmLoop prefs (a + b + 1) s = s by simp [bmLoop, hc, hstep]]
        rw [show bmLoop prefs (a + 1) s = s by simp [bmLoop, hc, hstep]]
        rw [bmLoop_done_fix prefs s (.inr hstep) b]
      | some s' =>
        rw [show bmLoop prefs (a + b + 1) s = bmLoop prefs (a + b) s' by
          simp [bmLoop, hc, hstep]]
        rw [show bmLoop prefs (a + 1) s = bmLoop prefs a s' by
          simp [bmLoop, hc, hstep]]
        exact ih s'
    · rw [show bmLoop prefs (a + b + 1) s = s by simp [bmLoop, hc]]
      rw [show bmLoop prefs (a + 1) s = s by simp [bmLoop, hc]]
      rw [bmLoop_done_fix prefs s (.inl hc) b]

/-- C8: for full-permutation rankings the main eating loop terminates:
within `n + m` events it reaches a state where every appetite is within
`eps` of zero or no candidate event exists, and running longer changes
nothing. -/
theorem eating_loop_terminates (prefs : Fin n → List (Fin m))
    (hperm : ∀ p, (prefs p).Perm (List.finRange m)) :
    ((∀ p, (bmLoop prefs (n + m) (initState n m)).personRem p ≤ eps) ∨
      bmStep prefs (bmLoop prefs (n + m) (initState n m)) = none) ∧
    (∀ k, bmLoop prefs (n + m + k) (initState n m) =
      bmLoop prefs (n + m) (initState n m)) := by
  have hdone := bmLoop_done_of_measure prefs (n + m) (initState n m)
    (activeCount_le_add _)
  constructor
  · rcases hdone with h | h
    · left
      intro p
      exact not_lt.1 (fun hl => h ⟨p, hl⟩)
    · right
      exact h
  · intro k
    rw [bmLoop_add prefs (n + m) k _, bmLoop_done_fix prefs _ hdone k]

theorem eating_loop_terminates_witness :
    ((∀ p, (bmLoop classicPrefs (3 + 3) (initState 3 3)).personRem p ≤ eps) ∨
      bmStep classicPrefs (bmLoop classicPrefs (3 + 3) (initState 3 3)) = none) ∧
    (∀ k, bmLoop classicPrefs (3 + 3 + k) (initState 3 3) =
      bmLoop classicPrefs (3 + 3) (initState 3 3)) :=
  eating_loop_terminates classicPrefs (by decide)

/-! ## Solver analysis: conservation invariants -/

theorem Inv_initState : Inv (initState n m) := by
  refine ⟨fun j => ?_, fun p => ?_, fun p j => ?_, fun p => ?_, fun j => ?_⟩ <;>
    simp [initState]

theorem dt_mul_cnt_le (prefs : Fin n → List (Fin m)) (s : BMState n m) (dt : ℚ)
    (hdt : listMin (dtCands prefs s) = some dt) (j : Fin m)
    (hj : 0 < eatersCnt prefs s j) :
    dt * (eatersCnt prefs s j : ℚ) ≤ s.itemRem j := by
  have hcast : (0:ℚ) < (eatersCnt prefs s j : ℚ) := by exact_mod_cast hj
  calc dt * (eatersCnt prefs s j : ℚ)
      ≤ (s.itemRem j / (eatersCnt prefs s j : ℚ)) * (eatersCnt prefs s j : ℚ) :=
        mul_le_mul_of_nonneg_right (dt_le_item prefs s dt hdt j hj) hcast.le
    _ = s.itemRem j := div_mul_cancel₀ _ hcast.ne'

theorem sum_prob_advance_col (prefs : Fin n → List (Fin m)) (s : BMState n m)
    (dt : ℚ) (j : Fin m) :
    (∑ p, (advance prefs s dt).prob p j) =
      (∑ p, s.prob p j) + (eatersCnt prefs s j : ℚ) * dt := by
  have h : ∀ p, (advance prefs s dt).prob p j =
      s.prob p j + (if topOf prefs s p = some j then dt else 0) := by
    intro p
    rw [advance_prob]
    by_cases h : topOf prefs s p = some j <;> simp [h]
  rw [Finset.sum_congr rfl (fun p _ => h p), Finset.sum_add_distrib,
    Finset.sum_ite, Finset.sum_const, Finset.sum_const_zero, add_zero]
  unfold eatersCnt
  rw [nsmul_eq_mul]

theorem Inv_advance (prefs : Fin n → List (Fin m)) (s : BMState n m) (dt : ℚ)
    (hdt : listMin (dtCands prefs s) = some dt) (hs : Inv s) :
    Inv (advance prefs s dt) := by
  have hdtpos := dt_pos prefs s dt hdt
  refine ⟨?_, ?_, ?_, ?_, ?_⟩
  · intro j
    rw [advance_itemRem prefs s dt hdt j]
    split
    · rename_i h
      exact sub_nonneg.2 (dt_mul_cnt_le prefs s dt hdt j h)
    · exact hs.itemRem_nonneg j
  · intro p
    rw [advance_personRem prefs s dt hdt p]
    split
    · rename_i h
      exact sub_nonneg.2 (dt_le_person prefs s dt hdt p h)
    · exact hs.personRem_nonneg p
  · intro p j
    rw [advance_prob]
    split
    · exact add_nonneg (hs.prob_nonneg p j) hdtpos.le
    · exact hs.prob_nonneg p j
  · intro p
    rw [advance_personRem prefs s dt hdt p]
    cases hto : topOf prefs s p with
    | none =>
      have hrow : ∀ j, (advance prefs s dt).prob p j = s.prob p j := by
        intro j
        rw [advance_prob, hto]
        simp
      rw [Finset.sum_congr rfl (fun j _ => hrow j)]
      simp only [hto, Option.isSome_none, Bool.false_eq_true, if_false]
      exact hs.row_eq p
    | some j₀ =>
      have hrow : ∀ j, (advance prefs s dt).prob p j =
          s.prob p j + (if j = j₀ then dt else 0) := by
        intro j
        rw [advance_prob, hto]
        by_cases h : j = j₀
        · simp [h]
        · rw [if_neg (fun hh : some j₀ = some j => h (Option.some.inj hh).symm),
            if_neg h, add_zero]
      rw [Finset.sum_congr rfl (fun j _ => hrow j), Finset.sum_add_distrib,
        Finset.sum_ite_eq' Finset.univ j₀ (fun _ => dt)]
      simp only [hto, Option.isSome_some, if_true, Finset.mem_univ]
      have := hs.row_eq p
      linarith
  · intro j
    rw [advance_itemRem prefs s dt hdt j, sum_prob_advance_col prefs s dt j]
    split
    · have := hs.col_eq j
      ring_nf
      ring_nf at this
      linarith
    · rename_i h
      have h0 : eatersCnt prefs s j = 0 := by omega
      rw [h0]
      have := hs.col_eq j
      push_cast
      linarith

theorem Inv_bmLoop (prefs : Fin n → List (Fin m)) :
    ∀ (fuel : ℕ) (s : BMState n m), Inv s → Inv (bmLoop prefs fuel s) := by
  intro fuel
  induction fuel with
  | zero => exact fun s hs => hs
  | succ fuel ih =>
    intro s hs
    by_cases hc : ∃ p, eps < s.personRem p
    · cases hstep : bmStep prefs s with
      | none =>
        rw [show bmLoop prefs (fuel + 1) s = s by simp [bmLoop, hc, hstep]]
        exact hs
      | some s' =>
        rw [show bmLoop prefs (fuel + 1) s = bmLoop prefs fuel s' by
          simp [bmLoop, hc, hstep]]
        obtain ⟨dt, hdt, rfl⟩ := bmStep_some prefs s s' hstep
        exact ih _ (Inv_advance prefs s dt hdt hs)
    · rw [show bmLoop prefs (fuel + 1) s = s by simp [bmLoop, hc]]
      exact hs

/-! ## Solver analysis: everyone eats during the first event -/

theorem topOf_init_isSome (prefs : Fin n → List (Fin m))
    (hne : ∀ q, prefs q ≠ []) (p : Fin n) :
    (topOf prefs (initState n m) p).isSome := by
  unfold topOf
  rw [if_pos (by simpa [initState] using eps_lt_one)]
  cases hp : prefs p with
  | nil => exact absurd hp (hne p)
  | cons a l =>
    rw [List.find?_cons_of_pos _ (by simpa [initState] using eps_lt_one)]
    rfl

theorem bmLoop_personRem_le (prefs : Fin n → List (Fin m)) :
    ∀ (fuel : ℕ) (s : BMState n m) (p : Fin n),
      (bmLoop prefs fuel s).personRem p ≤ s.personRem p := by
  intro fuel
  induction fuel with
  | zero => exact fun s p => le_refl _
  | succ fuel ih =>
    intro s p
    by_cases hc : ∃ q, eps < s.personRem q
    · cases hstep : bmStep prefs s with
      | none => rw [show bmLoop prefs (fuel + 1) s = s by simp [bmLoop, hc, hstep]]
      | some s' =>
        rw [show bmLoop prefs (fuel + 1) s = bmLoop prefs fuel s' by
          simp [bmLoop, hc, hstep]]
        obtain ⟨dt, hdt, rfl⟩ := bmStep_some prefs s s' hstep
        exact le_trans (ih _ p) (advance_personRem_le prefs s dt hdt p)
    · rw [show bmLoop prefs (fuel + 1) s = s by simp [bmLoop, hc]]

theorem final_personRem_lt_one (prefs : Fin n → List (Fin m)) (hm : 1 ≤ m)
    (hne : ∀ q, prefs q ≠ []) (p : Fin n) :
    (bmLoop prefs (n + m) (initState n m)).personRem p < 1 := by
  have hcond : ∃ q, eps < (initState n m).personRem q :=
    ⟨p, by simpa [initState] using eps_lt_one⟩
  have htop := topOf_init_isSome prefs hne
  have hmem : (initState n m).personRem p ∈ dtCands prefs (initState n m) := by
    refine List.mem_append_right _ (List.mem_map.2 ⟨p, ?_, rfl⟩)
    exact List.mem_filter.2 ⟨List.mem_finRange p, by simpa using htop p⟩
  obtain ⟨dt, hdt⟩ : ∃ dt, listMin (dtCands prefs (initState n m)) = some dt := by
    cases hlm : listMin (dtCands prefs (initState n m)) with
    | none =>
      rw [listMin_eq_none_iff] at hlm
      rw [hlm] at hmem
      exact absurd hmem (List.not_mem_nil _)
    | some dt => exact ⟨dt, rfl⟩
  have hstep : bmStep prefs (initState n m) =
      some (advance prefs (initState n m) dt) := by
    unfold bmStep
    rw [hdt]
  obtain ⟨f, hf⟩ : ∃ f, n + m = f + 1 := ⟨n + m - 1, by omega⟩
  rw [hf, show bmLoop prefs (f + 1) (initState n m) =
      bmLoop prefs f (advance prefs (initState n m) dt) by
    simp [bmLoop, hcond, hstep]]
  have hle := bmLoop_personRem_le prefs f (advance prefs (initState n m) dt) p
  have hadv : (advance prefs (initState n m) dt).personRem p = 1 - dt := by
    rw [advance_personRem prefs (initState n m) dt hdt p, if_pos (htop p)]
    simp [initState]
  have hdtpos := dt_pos prefs (initState n m) dt hdt
  rw [hadv] at hle
  linarith

/-! ## Solver analysis: post-processed rows are distributions -/

theorem solver_rows (prefs : Fin n → List (Fin m)) (hm : 1 ≤ m)
    (hne : ∀ q, prefs q ≠ []) (p : Fin n) :
    (∀ j, 0 ≤ bogomolnaia_moulin prefs p j) ∧
    (∑ j, bogomolnaia_moulin prefs p j) = 1 := by
  have hInv : Inv (bmLoop prefs (n + m) (initState n m)) :=
    Inv_bmLoop prefs (n + m) (initState n m) Inv_initState
  have hlt := final_personRem_lt_one prefs hm hne p
  set F := bmLoop prefs (n + m) (initState n m) with hF
  have hpos : 0 < ∑ j, F.prob p j := by
    have := hInv.row_eq p
    have := hInv.personRem_nonneg p
    linarith
  have hcl : ∀ (q : Fin n) (j : Fin m),
      (if F.prob q j < 0 then 0 else F.prob q j) = F.prob q j :=
    fun q j => if_neg (not_lt.2 (hInv.prob_nonneg q j))
  have hval : ∀ j, bogomolnaia_moulin prefs p j =
      F.prob p j / (∑ j', F.prob p j') := by
    intro j
    unfold bogomolnaia_moulin postprocess
    rw [← hF]
    simp only [hcl]
    rw [if_neg hpos.ne']
  constructor
  · intro j
    rw [hval j]
    exact div_nonneg (hInv.prob_nonneg p j) hpos.le
  · rw [Finset.sum_congr rfl (fun j _ => hval j), ← Finset.sum_div,
      div_self hpos.ne']

theorem bmList_rows (mm : ℕ) (rows : List (List ℕ)) :
    ∀ row ∈ bmList mm rows, ∃ i : Fin rows.length,
      row = (List.finRange mm).map
        (fun j => bogomolnaia_moulin (fun i' => toFins mm (rows.get i')) i j) := by
  intro row hrow
  unfold bmList at hrow
  simp only [List.mem_map] at hrow
  obtain ⟨i, _, hroweq⟩ := hrow
  exact ⟨i, hroweq.symm⟩

theorem row_map_sum (mm : ℕ) (f : Fin mm → ℚ) :
    ((List.finRange mm).map f).sum = ∑ j, f j :=
  (Fin.sum_univ_def f).symm

theorem toFins_perm_ne_nil (mm : ℕ) (r : List ℕ) (hm : 1 ≤ mm)
    (hperm : (toFins mm r).Perm (List.finRange mm)) : toFins mm r ≠ [] := by
  intro hnil
  rw [hnil] at hperm
  have := hperm.length_eq
  simp [List.length_finRange] at this
  omega

/-- C2: on a valid collecting session (full-permutation rankings, at
least 2 items, at least as many rankings as items) `run_algorithm`
succeeds and every row of the stored probability matrix is nonnegative
and sums to exactly 1. -/
theorem run_algorithm_rows_sum_one (store : Store) (gid : String) (s : Session)
    (hs : store gid = some s) (hst : s.status = .collecting)
    (hm : 2 ≤ s.items.length) (hcnt : s.items.length ≤ s.preferences.length)
    (hperm : ∀ r ∈ s.preferences.map Prod.snd,
      (toFins s.items.length r).Perm (List.finRange s.items.length)) :
    ∃ s', (run_algorithm store gid).2 gid = some s' ∧
      ∃ M, s'.probabilities = some M ∧
        ∀ row ∈ M, (∀ x ∈ row, 0 ≤ x) ∧ row.sum = 1 := by
  have hshape : (run_algorithm store gid).2 = store.set gid (some { s with
      probabilities := some (bmList s.items.length (s.preferences.map Prod.snd)),
      status := .algorithm_run }) := by
    simp [run_algorithm, hs, hst, not_lt.2 hcnt]
  refine ⟨{ s with
      probabilities := some (bmList s.items.length (s.preferences.map Prod.snd)),
      status := .algorithm_run },
    by rw [hshape]; simp [Store.set_lookup],
    bmList s.items.length (s.preferences.map Prod.snd), rfl, ?_⟩
  intro row hrow
  obtain ⟨i, hroweq⟩ := bmList_rows s.items.length (s.preferences.map Prod.snd)
    row hrow
  have hne : ∀ q, (fun i' => toFins s.items.length
      ((s.preferences.map Prod.snd).get i')) q ≠ [] := by
    intro q
    exact toFins_perm_ne_nil _ _ (by omega)
      (hperm _ (List.get_mem (s.preferences.map Prod.snd) q.1 q.2))
  have hsolver := solver_rows
    (fun i' => toFins s.items.length ((s.preferences.map Prod.snd).get i'))
    (by omega) hne i
  constructor
  · intro x hx
    rw [hroweq] at hx
    obtain ⟨j, _, hxeq⟩ := List.mem_map.1 hx
    rw [← hxeq]
    exact hsolver.1 j
  · rw [hroweq, row_map_sum]
    exact hsolver.2

theorem run_algorithm_rows_sum_one_witness :
    ∃ s', (run_algorithm twoTwoStore "g").2 "g" = some s' ∧
      ∃ M, s'.probabilities = some M ∧
        ∀ row ∈ M, (∀ x ∈ row, 0 ≤ x) ∧ row.sum = 1 := by
  refine run_algorithm_rows_sum_one twoTwoStore "g" twoTwoSession
    (by with_unfolding_all decide) rfl (by decide) (by decide) (by decide)

/-! ## Solver analysis: column sums when participants equal items -/

theorem final_personRem_le (prefs : Fin n → List (Fin m)) (hnm : n = m)
    (hm : 1 ≤ m) (hperm : ∀ q, (prefs q).Perm (List.finRange m)) (p : Fin n) :
    (bmLoop prefs (n + m) (initState n m)).personRem p ≤ (m : ℚ) * eps := by
  subst hnm
  have hInv : Inv (bmLoop prefs (n + n) (initState n n)) :=
    Inv_bmLoop prefs (n + n) (initState n n) Inv_initState
  have hdone := bmLoop_done_of_measure prefs (n + n) (initState n n)
    (activeCount_le_add _)
  set F := bmLoop prefs (n + n) (initState n n) with hF
  have heps_le : eps ≤ (n : ℚ) * eps := by
    have h1 : (1:ℚ) ≤ (n : ℚ) := by exact_mod_cast hm
    nlinarith [eps_pos]
  rcases hdone with hno | hstep
  · exact le_trans (not_lt.1 (fun h => hno ⟨p, h⟩)) heps_le
  · by_cases hact : ∃ q, eps < F.personRem q
    · obtain ⟨q, hq⟩ := hact
      have htop : topOf prefs F q = none := by
        cases hto : topOf prefs F q with
        | none => rfl
        | some j =>
          exfalso
          have hmem : F.personRem q ∈ dtCands prefs F := by
            refine List.mem_append_right _ (List.mem_map.2 ⟨q, ?_, rfl⟩)
            exact List.mem_filter.2 ⟨List.mem_finRange q, by simp [hto]⟩
          unfold bmStep at hstep
          cases hlm : listMin (dtCands prefs F) with
          | none =>
            rw [listMin_eq_none_iff] at hlm
            rw [hlm] at hmem
            exact List.not_mem_nil _ hmem
          | some dt => rw [hlm] at hstep; exact Option.noConfusion hstep
      have hitems : ∀ j, F.itemRem j ≤ eps := by
        intro j
        have hjmem : j ∈ prefs q := (hperm q).mem_iff.2 (List.mem_finRange j)
        unfold topOf at htop
        rw [if_pos hq] at htop
        have hfind := List.find?_eq_none.1 htop j hjmem
        simpa using hfind
      have hsum : (∑ q', F.personRem q') = ∑ j, F.itemRem j := by
        have h1 : ∀ q', F.personRem q' = 1 - ∑ j, F.prob q' j := fun q' => by
          linarith [hInv.row_eq q']
        have h2 : ∀ j, F.itemRem j = 1 - ∑ q', F.prob q' j := fun j => by
          linarith [hInv.col_eq j]
        rw [Finset.sum_congr rfl (fun q' _ => h1 q'),
          Finset.sum_congr rfl (fun j _ => h2 j),
          Finset.sum_sub_distrib, Finset.sum_sub_distrib, Finset.sum_comm]
      have hsum_le : (∑ j, F.itemRem j) ≤ (n : ℚ) * eps := by
        calc (∑ j, F.itemRem j) ≤ ∑ _j : Fin n, eps :=
              Finset.sum_le_sum (fun j _ => hitems j)
          _ = (n : ℚ) * eps := by
              rw [Finset.sum_const, nsmul_eq_mul, Finset.card_univ, Fintype.card_fin]
      have hsingle : F.personRem p ≤ ∑ q', F.personRem q' :=
        Finset.single_le_sum (fun q' _ => hInv.personRem_nonneg q')
          (Finset.mem_univ p)
      linarith
    · push_neg at hact
      exact le_trans (hact p) heps_le

theorem solver_cols (prefs : Fin n → List (Fin m)) (hnm : n = m) (hm : 1 ≤ m)
    (h999 : m ≤ 999) (hperm : ∀ q, (prefs q).Perm (List.finRange m)) (j : Fin m) :
    (∑ p, bogomolnaia_moulin prefs p j) ≤ 1 + 1 / 1000000 := by
  have hple := final_personRem_le prefs hnm hm hperm
  subst hnm
  have hInv : Inv (bmLoop prefs (n + n) (initState n n)) :=
    Inv_bmLoop prefs (n + n) (initState n n) Inv_initState
  set F := bmLoop prefs (n + n) (initState n n) with hF
  have hmeps : (n : ℚ) * eps ≤ 999 / 1000000000 := by
    have h9 : (n : ℚ) ≤ 999 := by exact_mod_cast h999
    rw [show eps = 1 / 1000000000 from rfl]
    linarith
  have h1 : (0:ℚ) < 1 - (n : ℚ) * eps := by
    norm_num [eps] at hmeps ⊢
    linarith
  have hrow_lb : ∀ p, 1 - (n : ℚ) * eps ≤ ∑ j', F.prob p j' := by
    intro p
    have := hInv.row_eq p
    have := hple p
    linarith
  have hrow_pos : ∀ p, 0 < ∑ j', F.prob p j' := fun p =>
    lt_of_lt_of_le h1 (hrow_lb p)
  have hcl : ∀ (q : Fin n) (j' : Fin n),
      (if F.prob q j' < 0 then 0 else F.prob q j') = F.prob q j' :=
    fun q j' => if_neg (not_lt.2 (hInv.prob_nonneg q j'))
  have hval : ∀ p, bogomolnaia_moulin prefs p j =
      F.prob p j / (∑ j', F.prob p j') := by
    intro p
    unfold bogomolnaia_moulin postprocess
    rw [← hF]
    simp only [hcl]
    rw [if_neg (hrow_pos p).ne']
  have hentry : ∀ p, bogomolnaia_moulin prefs p j ≤
      F.prob p j / (1 - (n : ℚ) * eps) := by
    intro p
    rw [hval p]
    gcongr
    · exact hInv.prob_nonneg p j
    · exact hrow_lb p
  have hcol : (∑ p, F.prob p j) ≤ 1 := by
    have := hInv.col_eq j
    have := hInv.itemRem_nonneg j
    linarith
  calc (∑ p, bogomolnaia_moulin prefs p j)
      ≤ ∑ p, F.prob p j / (1 - (n : ℚ) * eps) :=
        Finset.sum_le_sum (fun p _ => hentry p)
    _ = (∑ p, F.prob p j) / (1 - (n : ℚ) * eps) := by rw [Finset.sum_div]
    _ ≤ 1 / (1 - (n : ℚ) * eps) := (div_le_div_right h1).2 hcol
    _ ≤ 1 + 1 / 1000000 := by
        rw [div_le_iff h1]
        have hnn : (0:ℚ) ≤ (n : ℚ) * eps :=
          mul_nonneg (Nat.cast_nonneg n) eps_pos.le
        ring_nf
        norm_num [eps] at hmeps ⊢
        linarith

theorem map_finRange_getD (mm : ℕ) (f : Fin mm → ℚ) (j : ℕ) (hj : j < mm) :
    ((List.finRange mm).map f).getD j 0 = f ⟨j, hj⟩ := by
  rw [List.getD_eq_getElem?_getD, List.getElem?_map,
    List.getElem?_eq_getElem (by simpa [List.length_finRange] using hj)]
  simp [List.getElem_finRange, Fin.cast]

theorem colSumList_bmList (mm : ℕ) (rows : List (List ℕ)) (j : ℕ) (hj : j < mm) :
    colSumList (bmList mm rows) j =
      ∑ i, bogomolnaia_moulin (fun i' => toFins mm (rows.get i')) i ⟨j, hj⟩ := by
  unfold colSumList bmList
  rw [List.map_map]
  rw [show ((fun row : List ℚ => row.getD j 0) ∘
      (fun i => (List.finRange mm).map
        (fun j' => bogomolnaia_moulin (fun i' => toFins mm (rows.get i')) i j'))) =
      fun i => bogomolnaia_moulin (fun i' => toFins mm (rows.get i')) i ⟨j, hj⟩ from
    funext fun i => map_finRange_getD mm _ j hj]
  rw [row_map_sum]

/-- C3 amended: on a valid collecting session whose number of collected
rankings EQUALS the number of items (and at most 999 items),
`run_algorithm` stores a matrix in which every column sum is at most
`1 + 1e-6`. -/
theorem run_algorithm_cols_amended (store : Store) (gid : String) (s : Session)
    (hs : store gid = some s) (hst : s.status = .collecting)
    (hm : 2 ≤ s.items.length) (hnm : s.preferences.length = s.items.length)
    (h999 : s.items.length ≤ 999)
    (hperm : ∀ r ∈ s.preferences.map Prod.snd,
      (toFins s.items.length r).Perm (List.finRange s.items.length)) :
    ∃ s', (run_algorithm store gid).2 gid = some s' ∧
      ∃ M, s'.probabilities = some M ∧
        ∀ j < s.items.length, colSumList M j ≤ 1 + 1 / 1000000 := by
  have hcnt : s.items.length ≤ s.preferences.length := le_of_eq hnm.symm
  have hshape : (run_algorithm store gid).2 = store.set gid (some { s with
      probabilities := some (bmList s.items.length (s.preferences.map Prod.snd)),
      status := .algorithm_run }) := by
    simp [run_algorithm, hs, hst, not_lt.2 hcnt]
  refine ⟨{ s with
      probabilities := some (bmList s.items.length (s.preferences.map Prod.snd)),
      status := .algorithm_run },
    by rw [hshape]; simp [Store.set_lookup],
    bmList s.items.length (s.preferences.map Prod.snd), rfl, ?_⟩
  intro j hj
  rw [colSumList_bmList s.items.length (s.preferences.map Prod.snd) j hj]
  refine solver_cols _ ?_ (by omega) h999 ?_ ⟨j, hj⟩
  · rw [List.length_map, hnm]
  · intro q
    exact hperm _ (List.get_mem (s.preferences.map Prod.snd) q.1 q.2)

theorem run_algorithm_cols_amended_witness :
    ∃ s', (run_algorithm twoTwoStore "g").2 "g" = some s' ∧
      ∃ M, s'.probabilities = some M ∧
        ∀ j < twoTwoSession.items.length, colSumList M j ≤ 1 + 1 / 1000000 := by
  exact run_algorithm_cols_amended twoTwoStore "g" twoTwoSession
    (by with_unfolding_all decide) rfl (by decide) (by decide) (by decide)
    (by decide)

end BMBot
